import Mathlib

/-!
Verification of the certificate-generation web application (`main.py`).

Strings from the Python source are embedded as `List Char` (one entry per
Unicode code point, matching Python string indexing and len).  The Python
string replace method, which replaces every non-overlapping occurrence
left to right, is embedded as `replaceAll`.  Dataset cells are either a
string or the missing value NaN; Python str() coercion sends NaN to the
text nan.
-/

namespace Xibao

/-- Python `str.replace` with explicit fuel (structural recursion so that
the kernel can evaluate it).  The fuel is consumed one unit per step while
at least one character is consumed, so `fuel = s.length` suffices. -/
def replaceAllAux (pat rep : List Char) : Nat → List Char → List Char
  | _, [] => []
  | 0, s => s
  | fuel + 1, c :: cs =>
    if pat ≠ [] ∧ pat.isPrefixOf (c :: cs) then
      rep ++ replaceAllAux pat rep fuel (List.drop pat.length (c :: cs))
    else
      c :: replaceAllAux pat rep fuel cs

/-- Embedding of Python `s.replace(pat, rep)` for nonempty `pat`:
replace every non-overlapping occurrence of `pat` in `s` by `rep`,
scanning left to right. -/
def replaceAll (pat rep s : List Char) : List Char :=
  replaceAllAux pat rep s.length s

/-- The opening brace character, code point 123. -/
def lbrace : Char := Char.ofNat 123

/-- The closing brace character, code point 125. -/
def rbrace : Char := Char.ofNat 125

/-- The space character, code point 32. -/
def spaceChar : Char := Char.ofNat 32

-- Placeholder tokens of the SVG template, from `main.py` lines 173-180.

def tokUniEnAttr : List Char := "\x7b\x7bUNI_EN_ATTR\x7d\x7d".toList
def tokUniCnAttr : List Char := "\x7b\x7bUNI_CN_ATTR\x7d\x7d".toList
def tokUniCn : List Char := "\x7b\x7bUNI_CN\x7d\x7d".toList
def tokUniEn : List Char := "\x7b\x7bUNI_EN\x7d\x7d".toList
def tokNameCn : List Char := "\x7b\x7bNAME_CN\x7d\x7d".toList
def tokNameEn : List Char := "\x7b\x7bNAME_EN\x7d\x7d".toList

/-- The six placeholder tokens, in the order `generate` replaces them
(attributes first, then text content). -/
def tokensList : List (List Char) :=
  [tokUniEnAttr, tokUniCnAttr, tokUniCn, tokUniEn, tokNameCn, tokNameEn]

/-- The compression attribute pair emitted for over-long names
(`main.py` lines 161 and 167). -/
def squashAttr : List Char :=
  "textLength=\"1600\" lengthAdjust=\"spacingAndGlyphs\"".toList

/-- The literal background file name referenced by the template
(`main.py` line 149). -/
def bgFileName : List Char := "xibaobackground.jpg".toList

/-- Prefix of the data URI substituted for the background file name
(`main.py` line 152). -/
def dataUriPrefix : List Char := "data:image/jpeg;base64,".toList

/-- A dataset cell: either a string value or the missing value NaN
(pandas represents an empty CSV field as NaN). -/
inductive Cell
  | str (s : List Char)
  | nan
deriving DecidableEq

/-- Python `str()` applied to a cell: a string is unchanged, NaN prints
as the literal text `nan`. -/
def Cell.toStr : Cell → List Char
  | .str s => s
  | .nan => ['n', 'a', 'n']

/-- Pandas equality comparison of a cell against a string: NaN compares
unequal to every string. -/
def Cell.eqStr : Cell → List Char → Bool
  | .str s, v => s = v
  | .nan, _ => false

/-- One row of `uni.csv` (columns used by the program). -/
structure UniRow where
  englishName : Cell
  chineseName : Cell
deriving DecidableEq

/-- One row of `namelist.csv` (columns used by the program). -/
structure StudentRow where
  nameCn : Cell
  nameEn : Cell
  famName : Cell
  idNum : Cell
deriving DecidableEq

/-- `main.py` lines 159-163: English-name sizing attribute. -/
def en_attr_of (uni_en_str : List Char) : List Char :=
  if 25 < uni_en_str.length then squashAttr else []

/-- `main.py` lines 165-169: Chinese-name sizing attribute. -/
def cn_attr_of (uni_cn_str : List Char) : List Char :=
  if 15 < uni_cn_str.length then squashAttr else []

/-- `main.py` lines 149-153: if the background image file was read
(`bg = some b64`), replace the literal file name with a data URI;
otherwise leave the template unchanged. -/
def injectBackground (svg : List Char) (bg : Option (List Char)) : List Char :=
  match bg with
  | some b64 => replaceAll bgFileName (dataUriPrefix ++ b64) svg
  | none => svg

/-- `main.py` lines 156-180 without the background step: the sizing
heuristic followed by the six placeholder replacements, in source order. -/
def substitutePlaceholders (svg : List Char) (u : UniRow) (s : StudentRow) : List Char :=
  let uni_en_str := u.englishName.toStr
  let uni_cn_str := u.chineseName.toStr
  let svg := replaceAll tokUniEnAttr (en_attr_of uni_en_str) svg
  let svg := replaceAll tokUniCnAttr (cn_attr_of uni_cn_str) svg
  let svg := replaceAll tokUniCn uni_cn_str svg
  let svg := replaceAll tokUniEn uni_en_str svg
  let svg := replaceAll tokNameCn s.nameCn.toStr svg
  let svg := replaceAll tokNameEn (s.nameEn.toStr ++ [spaceChar] ++ s.famName.toStr) svg
  svg

/-- The whole rendering pipeline of `generate` (`main.py` lines 145-180):
background inlining, sizing heuristic, placeholder substitution. -/
def renderSvg (template : List Char) (bg : Option (List Char))
    (u : UniRow) (s : StudentRow) : List Char :=
  substitutePlaceholders (injectBackground template bg) u s

/-- `main.py` line 182: the output file name, cert_ followed by the
student ID field coerced to a string, then .png. -/
def output_filename (s : StudentRow) : List Char :=
  "cert_".toList ++ s.idNum.toStr ++ ".png".toList

-- Authentication (`main.py` lines 20-21, 50-52).

def SESSION_TOKEN : List Char := "valid_session_token".toList

def ADMIN_PASSWORD : List Char := "secret_password_123".toList

/-- `main.py` lines 50-52: the session cookie (if any) must equal the
fixed token. -/
def check_auth (cookie : Option (List Char)) : Bool :=
  cookie = some SESSION_TOKEN

/-- A `Set-Cookie` instruction attached to a response. -/
structure SetCookie where
  key : List Char
  value : List Char
  maxAge : Nat
deriving DecidableEq

/-- Outcome of `POST /login` (`main.py` lines 90-99). -/
inductive LoginResult
  | redirect (url : List Char) (cookie : SetCookie)
  | loginPageWithError (msg : List Char)
deriving DecidableEq

/-- `main.py` lines 90-99: compare the password, on success redirect to
`/` setting the session cookie for 7 days, otherwise re-render the login
page with an error and no cookie. -/
def login (password : List Char) : LoginResult :=
  if password = ADMIN_PASSWORD then
    .redirect "/".toList ⟨"session_id".toList, SESSION_TOKEN, 604800⟩
  else
    .loginPageWithError "Incorrect Password".toList

-- The home page (`main.py` lines 109-125).

/-- Pandas `Series.dropna()`: keep only the non-NaN values. -/
def dropna (col : List Cell) : List (List Char) :=
  col.filterMap fun c => match c with
    | .str s => some s
    | .nan => none

/-- Pandas `Series.unique()`: deduplicate, keeping the first occurrence
of each value in order of appearance. -/
def uniqueKeepFirst (l : List (List Char)) : List (List Char) :=
  l.foldl (fun acc x => if x ∈ acc then acc else acc ++ [x]) []

/-- Outcome of `GET /` (`main.py` lines 109-125). -/
inductive IndexResult
  | redirectLogin
  | page (unis students : List (List Char))
deriving DecidableEq

/-- `main.py` lines 109-123: redirect unauthenticated requests to
`/login`, otherwise serve the page listing
`uni_df["English Name"].dropna().unique()` and
`name_df["NAME_CN"].dropna().unique()`. -/
def index (cookie : Option (List Char))
    (uni_df : List UniRow) (name_df : List StudentRow) : IndexResult :=
  if ¬ check_auth cookie then .redirectLogin
  else .page
    (uniqueKeepFirst (dropna (uni_df.map (·.englishName))))
    (uniqueKeepFirst (dropna (name_df.map (·.nameCn))))

-- The generate route (`main.py` lines 128-217).

/-- `main.py` line 136 with line 142: the first row whose `NAME_CN`
equals the submitted student name (`iloc[0]` of the filtered frame). -/
def find_student (name_df : List StudentRow) (student_name : List Char) : Option StudentRow :=
  name_df.find? fun r => r.nameCn.eqStr student_name

/-- `main.py` line 137 with line 142: the first row whose `English Name`
equals the submitted university name. -/
def find_uni (uni_df : List UniRow) (uni_name : List Char) : Option UniRow :=
  uni_df.find? fun r => r.englishName.eqStr uni_name

/-- Outcome of `POST /generate` as observable before the screenshot:
the redirect, the plain-text error, or the page response together with
the rendered markup handed to the capture step, the image URL, and the
raw option lists `uni_df["English Name"].tolist()` /
`name_df["NAME_CN"].tolist()`. -/
inductive GenerateResult
  | redirectLogin
  | dataNotFound (msg : List Char)
  | pageWithImage (svg : List Char) (imageUrl : List Char)
      (unis students : List Cell)
deriving DecidableEq

/-- `main.py` lines 128-217 (capture side effects elided; `svg` is the
markup passed to `page.set_content`): authentication check, row lookup,
error on a missing row, otherwise rendering and the final page whose
option lists are the raw, non-deduplicated columns. -/
def generate (cookie : Option (List Char)) (student_name uni_name : List Char)
    (uni_df : List UniRow) (name_df : List StudentRow)
    (template : List Char) (bg : Option (List Char)) : GenerateResult :=
  if ¬ check_auth cookie then .redirectLogin
  else
    match find_student name_df student_name, find_uni uni_df uni_name with
    | some s, some u =>
        let svg := renderSvg template bg u s
        .pageWithImage svg ("/static/".toList ++ output_filename s)
          (uni_df.map (·.englishName)) (name_df.map (·.nameCn))
    | _, _ => .dataNotFound "Error: Data not found.".toList

/-- Does `pat` occur as a contiguous substring of `s`? -/
def occursB (pat : List Char) : List Char → Bool
  | [] => pat.isEmpty
  | c :: cs => pat.isPrefixOf (c :: cs) || occursB pat cs

/-! ### Basic facts about `replaceAll` -/

theorem replaceAllAux_fuel (pat rep : List Char) :
    ∀ fuel fuel' s, s.length ≤ fuel → s.length ≤ fuel' →
      replaceAllAux pat rep fuel s = replaceAllAux pat rep fuel' s := by
  intro fuel
  induction fuel with
  | zero =>
    intro fuel' s hs _
    have : s = [] := List.length_eq_zero.mp (Nat.le_zero.mp hs)
    subst this
    cases fuel' <;> rfl
  | succ n ih =>
    intro fuel' s hs hs'
    cases s with
    | nil => cases fuel' <;> rfl
    | cons c cs =>
      cases fuel' with
      | zero => exact absurd hs' (by simp)
      | succ m =>
        simp only [replaceAllAux]
        by_cases h : pat ≠ [] ∧ pat.isPrefixOf (c :: cs)
        · simp only [if_pos h]
          have hp : 0 < pat.length := List.length_pos.mpr h.1
          have hd : (List.drop pat.length (c :: cs)).length ≤ n := by
            simp only [List.length_drop, List.length_cons]
            simp only [List.length_cons] at hs
            omega
          have hd' : (List.drop pat.length (c :: cs)).length ≤ m := by
            simp only [List.length_drop, List.length_cons]
            simp only [List.length_cons] at hs'
            omega
          rw [ih m _ hd hd']
        · simp only [if_neg h]
          have hc : cs.length ≤ n := by simp at hs; omega
          have hc' : cs.length ≤ m := by simp at hs'; omega
          rw [ih m _ hc hc']

theorem replaceAll_nil (pat rep : List Char) : replaceAll pat rep [] = [] := rfl

theorem replaceAll_cons_pos (pat rep : List Char) (c : Char) (cs : List Char)
    (h₁ : pat ≠ []) (h₂ : pat.isPrefixOf (c :: cs)) :
    replaceAll pat rep (c :: cs) =
      rep ++ replaceAll pat rep (List.drop pat.length (c :: cs)) := by
  show replaceAllAux pat rep (c :: cs).length (c :: cs) = _
  simp only [List.length_cons, replaceAllAux, if_pos (And.intro h₁ h₂)]
  congr 1
  apply replaceAllAux_fuel
  · have hp : 0 < pat.length := List.length_pos.mpr h₁
    simp only [List.length_drop, List.length_cons]
    omega
  · exact Nat.le_refl _

theorem replaceAll_cons_neg (pat rep : List Char) (c : Char) (cs : List Char)
    (h : ¬ (pat ≠ [] ∧ pat.isPrefixOf (c :: cs) = true)) :
    replaceAll pat rep (c :: cs) = c :: replaceAll pat rep cs := by
  show replaceAllAux pat rep (c :: cs).length (c :: cs) = _
  simp only [List.length_cons, replaceAllAux, if_neg h]
  rfl

theorem replaceAll_empty_pat (rep : List Char) : ∀ s, replaceAll [] rep s = s := by
  intro s
  induction s with
  | nil => rfl
  | cons c cs ih =>
    rw [replaceAll_cons_neg _ _ _ _ (by simp), ih]

theorem replaceAll_consume (pat rep rest : List Char) (h : pat ≠ []) :
    replaceAll pat rep (pat ++ rest) = rep ++ replaceAll pat rep rest := by
  cases hp : pat with
  | nil => exact absurd hp h
  | cons p pt =>
    rw [← hp]
    have hpre : pat.isPrefixOf (pat ++ rest) = true := by
      rw [List.isPrefixOf_iff_prefix]
      exact List.prefix_append pat rest
    cases hcat : pat ++ rest with
    | nil =>
      exact absurd hcat (by simp [hp])
    | cons c cs =>
      rw [← hcat, hp, ← hp]
      have : replaceAll pat rep (pat ++ rest) =
          rep ++ replaceAll pat rep (List.drop pat.length (pat ++ rest)) := by
        rw [hcat]
        exact replaceAll_cons_pos pat rep c cs h (hcat ▸ hpre)
      rw [this, List.drop_left]

theorem mem_replaceAllAuxLen (pat rep : List Char) (x : Char) :
    ∀ n s, s.length ≤ n → x ∈ replaceAll pat rep s → x ∈ s ∨ x ∈ rep := by
  intro n
  induction n with
  | zero =>
    intro s hs hx
    have : s = [] := List.length_eq_zero.mp (Nat.le_zero.mp hs)
    subst this
    simp [replaceAll_nil] at hx
  | succ n ih =>
    intro s hs hx
    cases s with
    | nil => simp [replaceAll_nil] at hx
    | cons c cs =>
      by_cases h : pat ≠ [] ∧ pat.isPrefixOf (c :: cs) = true
      · rw [replaceAll_cons_pos pat rep c cs h.1 h.2] at hx
        rcases List.mem_append.mp hx with hx | hx
        · exact Or.inr hx
        · have hlen : (List.drop pat.length (c :: cs)).length ≤ n := by
            have hp : 0 < pat.length := List.length_pos.mpr h.1
            simp only [List.length_drop, List.length_cons]
            simp only [List.length_cons] at hs
            omega
          rcases ih _ hlen hx with hx | hx
          · exact Or.inl (List.drop_subset _ _ hx)
          · exact Or.inr hx
      · rw [replaceAll_cons_neg pat rep c cs h] at hx
        rcases List.mem_cons.mp hx with hx | hx
        · exact Or.inl (hx ▸ List.mem_cons_self c cs)
        · have hlen : cs.length ≤ n := by simp at hs; omega
          rcases ih _ hlen hx with hx | hx
          · exact Or.inl (List.mem_cons_of_mem c hx)
          · exact Or.inr hx

theorem mem_replaceAll {x : Char} {pat rep s : List Char}
    (hx : x ∈ replaceAll pat rep s) : x ∈ s ∨ x ∈ rep :=
  mem_replaceAllAuxLen pat rep x s.length s (Nat.le_refl _) hx

theorem replaceAll_peel (pat rep : List Char) :
    ∀ t rest, (∀ j, j < t.length → pat.isPrefixOf (List.drop j t ++ rest) = false) →
      replaceAll pat rep (t ++ rest) = t ++ replaceAll pat rep rest := by
  intro t
  induction t with
  | nil => intro rest _; simp
  | cons c t' ih =>
    intro rest h
    have h0 : pat.isPrefixOf (c :: (t' ++ rest)) = false := by
      have := h 0 (by simp)
      simpa using this
    rw [List.cons_append, replaceAll_cons_neg pat rep c (t' ++ rest)
      (by rw [h0]; simp)]
    rw [ih rest fun j hj => by simpa using h (j + 1) (by simpa using hj)]
    simp

/-! ### Prefix helpers -/

theorem isPrefixOf_append_left {pat l b : List Char} (h : pat.isPrefixOf l = true) :
    pat.isPrefixOf (l ++ b) = true := by
  rw [List.isPrefixOf_iff_prefix] at h ⊢
  exact h.trans (List.prefix_append l b)

theorem isPrefixOf_of_append_le {pat l b : List Char} (h : pat.isPrefixOf (l ++ b) = true)
    (hlen : pat.length ≤ l.length) : pat.isPrefixOf l = true := by
  rw [List.isPrefixOf_iff_prefix] at h ⊢
  rw [List.prefix_iff_eq_take] at h
  rw [List.take_append_of_le_length hlen] at h
  rw [h]
  exact List.take_prefix _ _

theorem take_isPrefixOf_of_append {pat t rest : List Char}
    (h : pat.isPrefixOf (t ++ rest) = true) :
    (pat.take t.length).isPrefixOf t = true := by
  rw [List.isPrefixOf_iff_prefix] at h ⊢
  have := h.take t.length
  rwa [List.take_left] at this

theorem head_mem_of_isPrefixOf_append {pat x : List Char} {c : Char} {y : List Char}
    (h : pat.isPrefixOf (x ++ c :: y) = true) (hlen : x.length < pat.length) : c ∈ pat := by
  rw [List.isPrefixOf_iff_prefix] at h
  have htake := h.take (x.length + 1)
  have hxc : (x ++ c :: y).take (x.length + 1) = x ++ [c] := by
    rw [List.take_append_eq_append_take]
    congr 1
    · exact List.take_of_length_le (by omega)
    · simp
  rw [hxc] at htake
  have hlen2 : (pat.take (x.length + 1)).length = (x ++ [c]).length := by
    simp
    omega
  have heq := htake.eq_of_length hlen2
  have hc : c ∈ pat.take (x.length + 1) := by
    rw [heq]
    simp
  exact List.take_subset _ _ hc

theorem not_isPrefixOf_head_ne {pat : List Char} {hp : Char} {pt : List Char}
    (hpat : pat = hp :: pt) {c : Char} (hc : c ≠ hp) (l : List Char) :
    pat.isPrefixOf (c :: l) = false := by
  subst hpat
  simp only [List.isPrefixOf_cons₂]
  have : (hp == c) = false := by
    simp only [beq_eq_false_iff_ne]
    exact fun h => hc h.symm
  simp [this]

/-! ### Splitting `replaceAll` at a boundary no occurrence crosses -/

theorem replaceAll_splitAuxLen (pat rep : List Char) :
    ∀ n a b, a.length ≤ n →
      (∀ j, j < a.length → pat.isPrefixOf (List.drop j a ++ b) = true →
        j + pat.length ≤ a.length) →
      replaceAll pat rep (a ++ b) = replaceAll pat rep a ++ replaceAll pat rep b := by
  intro n
  induction n with
  | zero =>
    intro a b ha _
    have : a = [] := List.length_eq_zero.mp (Nat.le_zero.mp ha)
    subst this
    simp [replaceAll_nil]
  | succ n ih =>
    intro a b ha hocc
    cases hpe : pat with
    | nil => subst hpe; simp [replaceAll_empty_pat]
    | cons p pt =>
      rw [← hpe]
      have hpne : pat ≠ [] := by simp [hpe]
      cases a with
      | nil => simp [replaceAll_nil]
      | cons c a' =>
        by_cases hpre : pat.isPrefixOf (c :: (a' ++ b)) = true
        · have hfit : pat.length ≤ (c :: a').length := by
            have := hocc 0 (by simp) (by simpa using hpre)
            omega
          have hprea : pat.isPrefixOf (c :: a') = true :=
            isPrefixOf_of_append_le (by simpa using hpre) hfit
          have hlhs : replaceAll pat rep ((c :: a') ++ b) =
              rep ++ replaceAll pat rep (List.drop pat.length (c :: (a' ++ b))) := by
            rw [List.cons_append]
            exact replaceAll_cons_pos pat rep c (a' ++ b) hpne hpre
          rw [hlhs, replaceAll_cons_pos pat rep c a' hpne hprea]
          have hd : List.drop pat.length (c :: (a' ++ b)) =
              List.drop pat.length (c :: a') ++ b := by
            have hdr : ((c :: a') ++ b).drop pat.length =
                (c :: a').drop pat.length ++ b :=
              List.drop_append_of_le_length hfit
            simpa using hdr
          rw [hd]
          have hlen : (List.drop pat.length (c :: a')).length ≤ n := by
            have hp : 0 < pat.length := List.length_pos.mpr hpne
            simp only [List.length_drop, List.length_cons]
            simp only [List.length_cons] at ha
            omega
          rw [ih _ b hlen ?_, List.append_assoc]
          intro j hj hpj
          have hdd : List.drop j (List.drop pat.length (c :: a')) =
              List.drop (pat.length + j) (c :: a') := by
            rw [List.drop_drop]
          rw [hdd] at hpj
          have := hocc (pat.length + j) ?_ hpj
          · simp only [List.length_drop] at hj ⊢
            omega
          · simp only [List.length_drop] at hj
            omega
        · have hpreF : pat.isPrefixOf (c :: (a' ++ b)) = false :=
            eq_false_of_ne_true hpre
          have hprea : pat.isPrefixOf (c :: a') = false := by
            by_contra hcon
            have h1 : pat.isPrefixOf (c :: a') = true := by
              cases h' : pat.isPrefixOf (c :: a') with
              | true => rfl
              | false => exact absurd h' hcon
            have h2 := isPrefixOf_append_left (b := b) h1
            rw [List.cons_append] at h2
            rw [h2] at hpreF
            simp at hpreF
          have hlhs : replaceAll pat rep ((c :: a') ++ b) =
              c :: replaceAll pat rep (a' ++ b) := by
            rw [List.cons_append]
            exact replaceAll_cons_neg pat rep c (a' ++ b) (by rw [hpreF]; simp)
          rw [hlhs, replaceAll_cons_neg pat rep c a' (by rw [hprea]; simp)]
          have hlen : a'.length ≤ n := by simp at ha; omega
          rw [ih a' b hlen ?_]
          · simp
          · intro j hj hpj
            have := hocc (j + 1) (by simp; omega) (by simpa using hpj)
            simp only [List.length_cons] at this
            omega

theorem replaceAll_split (pat rep a b : List Char)
    (hocc : ∀ j, j < a.length → pat.isPrefixOf (List.drop j a ++ b) = true →
      j + pat.length ≤ a.length) :
    replaceAll pat rep (a ++ b) = replaceAll pat rep a ++ replaceAll pat rep b :=
  replaceAll_splitAuxLen pat rep a.length a b (Nat.le_refl _) hocc

/-! ### Facts about the concrete tokens, checked by computation -/

theorem exists_cons_of_headEq {l : List Char} {c : Char} (h : l.head? = some c) :
    ∃ t, l = c :: t := by
  cases l with
  | nil => simp at h
  | cons x xs =>
    simp only [List.head?_cons, Option.some.injEq] at h
    exact ⟨xs, by rw [h]⟩

theorem tokens_ne_nil : ∀ pat ∈ tokensList, pat ≠ [] := by decide

theorem tokens_head : ∀ pat ∈ tokensList, pat.head? = some lbrace := by decide

theorem lbrace_not_mem_squashAttr : lbrace ∉ squashAttr := by decide

theorem lbrace_not_mem_dataUriPrefix : lbrace ∉ dataUriPrefix := by decide

theorem lbrace_not_mem_bgFileName : lbrace ∉ bgFileName := by decide

theorem lbrace_mem_tokens : ∀ t ∈ tokensList, lbrace ∈ t := by decide

theorem tokens_no_inner_match : ∀ pat ∈ tokensList, ∀ t ∈ tokensList, ∀ j, j < t.length →
    (pat = t → 1 ≤ j) → (pat.take (t.length - j)).isPrefixOf (List.drop j t) = false := by
  decide

theorem bg_no_match_in_tokens : ∀ t ∈ tokensList, ∀ j, j < t.length →
    (bgFileName.take (t.length - j)).isPrefixOf (List.drop j t) = false := by
  decide

/-! ### Derived peeling lemmas -/

theorem peel_no_lbrace (pat rep : List Char) (hp : pat.head? = some lbrace) :
    ∀ a rest, lbrace ∉ a →
      replaceAll pat rep (a ++ rest) = a ++ replaceAll pat rep rest := by
  obtain ⟨pt, hpe⟩ := exists_cons_of_headEq hp
  intro a
  induction a with
  | nil => intro rest _; simp
  | cons c a' ih =>
    intro rest ha
    have hc : c ≠ lbrace := fun h => ha (h ▸ List.mem_cons_self c a')
    have hnp : pat.isPrefixOf (c :: (a' ++ rest)) = false :=
      not_isPrefixOf_head_ne hpe hc _
    rw [List.cons_append, replaceAll_cons_neg _ _ _ _ (by rw [hnp]; simp),
      ih rest (fun h => ha (List.mem_cons_of_mem c h))]
    simp

theorem replaceAll_no_lbrace (pat rep : List Char) (hp : pat.head? = some lbrace)
    (s : List Char) (hs : lbrace ∉ s) : replaceAll pat rep s = s := by
  have := peel_no_lbrace pat rep hp s [] hs
  simpa [replaceAll_nil] using this

theorem peel_other_token (pat rep t rest : List Char) (hpat : pat ∈ tokensList)
    (ht : t ∈ tokensList) (hne : pat ≠ t) :
    replaceAll pat rep (t ++ rest) = t ++ replaceAll pat rep rest := by
  apply replaceAll_peel
  intro j hj
  cases htest : pat.isPrefixOf (List.drop j t ++ rest) with
  | false => rfl
  | true =>
    have hTk := take_isPrefixOf_of_append htest
    rw [List.length_drop] at hTk
    have hF := tokens_no_inner_match pat hpat t ht j hj (fun he => absurd he hne)
    rw [hF] at hTk
    exact absurd hTk (by simp)

theorem peel_bg_token (rep t rest : List Char) (ht : t ∈ tokensList) :
    replaceAll bgFileName rep (t ++ rest) = t ++ replaceAll bgFileName rep rest := by
  apply replaceAll_peel
  intro j hj
  cases htest : bgFileName.isPrefixOf (List.drop j t ++ rest) with
  | false => rfl
  | true =>
    have hTk := take_isPrefixOf_of_append htest
    rw [List.length_drop] at hTk
    have hF := bg_no_match_in_tokens t ht j hj
    rw [hF] at hTk
    exact absurd hTk (by simp)

/-! ### Well-formed templates as lists of pieces

The claim on dangling placeholders assumes the template uses exactly the
listed placeholder tokens.  We formalise that assumption: a well-formed
template is a concatenation of pieces, each either literal text free of
opening braces or one of the six placeholder tokens. -/

inductive TPiece
  | lit (cs : List Char)
  | ph (t : List Char)
deriving DecidableEq

def TPiece.flat : TPiece → List Char
  | .lit cs => cs
  | .ph t => t

def flattenPieces : List TPiece → List Char
  | [] => []
  | p :: ps => p.flat ++ flattenPieces ps

def goodPiece : TPiece → Prop
  | .lit cs => lbrace ∉ cs
  | .ph t => t ∈ tokensList

instance : DecidablePred goodPiece := fun p =>
  match p with
  | .lit cs => inferInstanceAs (Decidable (lbrace ∉ cs))
  | .ph t => inferInstanceAs (Decidable (t ∈ tokensList))

/-- One placeholder-replacement pass over a well-formed template: the
result is again well formed, and the placeholder pieces that survive are
placeholder pieces of the input other than the replaced token. -/
theorem passTok (pat rep : List Char) (hpat : pat ∈ tokensList) (hrep : lbrace ∉ rep) :
    ∀ ps, (∀ p ∈ ps, goodPiece p) → ∀ a, lbrace ∉ a →
      ∃ qs, replaceAll pat rep (a ++ flattenPieces ps) = flattenPieces qs ∧
        (∀ p ∈ qs, goodPiece p) ∧
        ∀ t, TPiece.ph t ∈ qs → TPiece.ph t ∈ ps ∧ t ≠ pat := by
  have hhead := tokens_head pat hpat
  have hne := tokens_ne_nil pat hpat
  intro ps
  induction ps with
  | nil =>
    intro _ a ha
    refine ⟨[.lit a], ?_, ?_, ?_⟩
    · show replaceAll pat rep (a ++ []) = a ++ []
      rw [List.append_nil]
      exact replaceAll_no_lbrace pat rep hhead a ha
    · intro p hp
      simp only [List.mem_singleton] at hp
      subst hp
      exact ha
    · intro t ht
      simp at ht
  | cons p ps' ih =>
    intro hgood a ha
    have hgood' : ∀ q ∈ ps', goodPiece q :=
      fun q hq => hgood q (List.mem_cons_of_mem p hq)
    cases p with
    | lit cs =>
      have hcs : lbrace ∉ cs := hgood (.lit cs) (List.mem_cons_self _ _)
      have hac : lbrace ∉ a ++ cs := by
        intro h
        rcases List.mem_append.mp h with h | h
        · exact ha h
        · exact hcs h
      obtain ⟨qs, heq, hq, hph⟩ := ih hgood' (a ++ cs) hac
      refine ⟨qs, ?_, hq, ?_⟩
      · show replaceAll pat rep (a ++ (cs ++ flattenPieces ps')) = _
        rw [← List.append_assoc]
        exact heq
      · intro t ht
        obtain ⟨h1, h2⟩ := hph t ht
        exact ⟨List.mem_cons_of_mem _ h1, h2⟩
    | ph t =>
      have htok : t ∈ tokensList := hgood (.ph t) (List.mem_cons_self _ _)
      obtain ⟨qs', heq', hq', hph'⟩ := ih hgood' [] (by simp)
      rw [List.nil_append] at heq'
      by_cases hpt : pat = t
      · subst hpt
        refine ⟨.lit a :: .lit rep :: qs', ?_, ?_, ?_⟩
        · show replaceAll pat rep (a ++ (pat ++ flattenPieces ps')) =
            a ++ (rep ++ flattenPieces qs')
          rw [peel_no_lbrace pat rep hhead a _ ha,
            replaceAll_consume pat rep _ hne, heq']
        · intro q hq
          rcases List.mem_cons.mp hq with rfl | hq
          · exact ha
          · rcases List.mem_cons.mp hq with rfl | hq
            · exact hrep
            · exact hq' q hq
        · intro t' ht'
          rcases List.mem_cons.mp ht' with h | h
          · exact absurd h (by simp)
          · rcases List.mem_cons.mp h with h | h
            · exact absurd h (by simp)
            · obtain ⟨h1, h2⟩ := hph' t' h
              exact ⟨List.mem_cons_of_mem _ h1, h2⟩
      · refine ⟨.lit a :: .ph t :: qs', ?_, ?_, ?_⟩
        · show replaceAll pat rep (a ++ (t ++ flattenPieces ps')) =
            a ++ (t ++ flattenPieces qs')
          rw [peel_no_lbrace pat rep hhead a _ ha,
            peel_other_token pat rep t _ hpat htok hpt, heq']
        · intro q hq
          rcases List.mem_cons.mp hq with rfl | hq
          · exact ha
          · rcases List.mem_cons.mp hq with rfl | hq
            · exact htok
            · exact hq' q hq
        · intro t' ht'
          rcases List.mem_cons.mp ht' with h | h
          · exact absurd h (by simp)
          · rcases List.mem_cons.mp h with h | h
            · have : t' = t := by injection h
              subst this
              exact ⟨List.mem_cons_self _ _, fun he => hpt he.symm⟩
            · obtain ⟨h1, h2⟩ := hph' t' h
              exact ⟨List.mem_cons_of_mem _ h1, h2⟩

/-- The background-inlining pass over a well-formed template: the file
name token contains no brace, so every occurrence lies inside literal
text and every placeholder piece survives untouched. -/
theorem passBg (rep : List Char) (hrep : lbrace ∉ rep) :
    ∀ ps, (∀ p ∈ ps, goodPiece p) → ∀ a, lbrace ∉ a →
      ∃ qs, replaceAll bgFileName rep (a ++ flattenPieces ps) = flattenPieces qs ∧
        (∀ p ∈ qs, goodPiece p) ∧
        ∀ t, TPiece.ph t ∈ qs → TPiece.ph t ∈ ps := by
  intro ps
  induction ps with
  | nil =>
    intro _ a ha
    refine ⟨[.lit (replaceAll bgFileName rep a)], ?_, ?_, ?_⟩
    · show replaceAll bgFileName rep (a ++ []) = replaceAll bgFileName rep a ++ []
      rw [List.append_nil, List.append_nil]
    · intro p hp
      simp only [List.mem_singleton] at hp
      subst hp
      intro h
      rcases mem_replaceAll h with h | h
      · exact ha h
      · exact hrep h
    · intro t ht
      simp at ht
  | cons p ps' ih =>
    intro hgood a ha
    have hgood' : ∀ q ∈ ps', goodPiece q :=
      fun q hq => hgood q (List.mem_cons_of_mem p hq)
    cases p with
    | lit cs =>
      have hcs : lbrace ∉ cs := hgood (.lit cs) (List.mem_cons_self _ _)
      have hac : lbrace ∉ a ++ cs := by
        intro h
        rcases List.mem_append.mp h with h | h
        · exact ha h
        · exact hcs h
      obtain ⟨qs, heq, hq, hph⟩ := ih hgood' (a ++ cs) hac
      exact ⟨qs, by
        show replaceAll bgFileName rep (a ++ (cs ++ flattenPieces ps')) = _
        rw [← List.append_assoc]
        exact heq, hq, fun t ht => List.mem_cons_of_mem _ (hph t ht)⟩
    | ph t =>
      have htok : t ∈ tokensList := hgood (.ph t) (List.mem_cons_self _ _)
      obtain ⟨pt, hte⟩ := exists_cons_of_headEq (tokens_head t htok)
      obtain ⟨qs', heq', hq', hph'⟩ := ih hgood' [] (by simp)
      rw [List.nil_append] at heq'
      have hsplit : replaceAll bgFileName rep (a ++ (t ++ flattenPieces ps')) =
          replaceAll bgFileName rep a ++
            replaceAll bgFileName rep (t ++ flattenPieces ps') := by
        apply replaceAll_split
        intro j hj hpj
        by_contra hcon
        have hlt : (List.drop j a).length < bgFileName.length := by
          simp only [List.length_drop]
          omega
        have hcc : lbrace ∈ bgFileName := by
          have := head_mem_of_isPrefixOf_append
            (x := List.drop j a) (c := lbrace) (y := pt ++ flattenPieces ps')
            (by
              rw [hte] at hpj
              simpa using hpj) hlt
          exact this
        exact lbrace_not_mem_bgFileName hcc
      refine ⟨.lit (replaceAll bgFileName rep a) :: .ph t :: qs', ?_, ?_, ?_⟩
      · show replaceAll bgFileName rep (a ++ (t ++ flattenPieces ps')) =
          replaceAll bgFileName rep a ++ (t ++ flattenPieces qs')
        rw [hsplit, peel_bg_token rep t _ htok, heq']
      · intro q hq
        rcases List.mem_cons.mp hq with rfl | hq
        · intro h
          rcases mem_replaceAll h with h | h
          · exact ha h
          · exact hrep h
        · rcases List.mem_cons.mp hq with rfl | hq
          · exact htok
          · exact hq' q hq
      · intro t' ht'
        rcases List.mem_cons.mp ht' with h | h
        · exact absurd h (by simp)
        · rcases List.mem_cons.mp h with h | h
          · have : t' = t := by injection h
            subst this
            exact List.mem_cons_self _ _
          · exact List.mem_cons_of_mem _ (hph' t' h)

/-! ### The full pipeline eliminates every placeholder token -/

theorem lbrace_not_mem_flatten (qs : List TPiece) (hq : ∀ p ∈ qs, goodPiece p)
    (hph : ∀ t, TPiece.ph t ∉ qs) : lbrace ∉ flattenPieces qs := by
  induction qs with
  | nil => simp [flattenPieces]
  | cons p qs' ih =>
    cases p with
    | lit cs =>
      intro h
      rcases List.mem_append.mp (by simpa [flattenPieces, TPiece.flat] using h) with h | h
      · exact hq (.lit cs) (List.mem_cons_self _ _) h
      · exact ih (fun q hqq => hq q (List.mem_cons_of_mem _ hqq))
          (fun t htt => hph t (List.mem_cons_of_mem _ htt)) h
    | ph t => exact absurd (List.mem_cons_self _ _) (hph t)

theorem en_attr_no_lbrace (x : List Char) : lbrace ∉ en_attr_of x := by
  unfold en_attr_of
  split
  · exact lbrace_not_mem_squashAttr
  · simp

theorem cn_attr_no_lbrace (x : List Char) : lbrace ∉ cn_attr_of x := by
  unfold cn_attr_of
  split
  · exact lbrace_not_mem_squashAttr
  · simp

theorem substitutePlaceholders_no_lbrace (ps : List TPiece)
    (hps : ∀ p ∈ ps, goodPiece p) (u : UniRow) (s : StudentRow)
    (hcn : lbrace ∉ u.chineseName.toStr) (hen : lbrace ∉ u.englishName.toStr)
    (hnc : lbrace ∉ s.nameCn.toStr) (hne : lbrace ∉ s.nameEn.toStr)
    (hfm : lbrace ∉ s.famName.toStr) :
    lbrace ∉ substitutePlaceholders (flattenPieces ps) u s := by
  have hv6 : lbrace ∉ s.nameEn.toStr ++ [spaceChar] ++ s.famName.toStr := by
    intro h
    rcases List.mem_append.mp h with h | h
    · rcases List.mem_append.mp h with h | h
      · exact hne h
      · simp only [List.mem_singleton] at h
        exact absurd h (by decide)
    · exact hfm h
  obtain ⟨q1, e1, g1, p1⟩ := passTok tokUniEnAttr (en_attr_of u.englishName.toStr)
    (by decide) (en_attr_no_lbrace _) ps hps [] (by simp)
  obtain ⟨q2, e2, g2, p2⟩ := passTok tokUniCnAttr (cn_attr_of u.chineseName.toStr)
    (by decide) (cn_attr_no_lbrace _) q1 g1 [] (by simp)
  obtain ⟨q3, e3, g3, p3⟩ := passTok tokUniCn u.chineseName.toStr
    (by decide) hcn q2 g2 [] (by simp)
  obtain ⟨q4, e4, g4, p4⟩ := passTok tokUniEn u.englishName.toStr
    (by decide) hen q3 g3 [] (by simp)
  obtain ⟨q5, e5, g5, p5⟩ := passTok tokNameCn s.nameCn.toStr
    (by decide) hnc q4 g4 [] (by simp)
  obtain ⟨q6, e6, g6, p6⟩ := passTok tokNameEn
    (s.nameEn.toStr ++ [spaceChar] ++ s.famName.toStr)
    (by decide) hv6 q5 g5 [] (by simp)
  rw [List.nil_append] at e1 e2 e3 e4 e5 e6
  show lbrace ∉ replaceAll tokNameEn _ (replaceAll tokNameCn _ (replaceAll tokUniEn _
    (replaceAll tokUniCn _ (replaceAll tokUniCnAttr _
      (replaceAll tokUniEnAttr _ (flattenPieces ps))))))
  rw [e1, e2, e3, e4, e5, e6]
  apply lbrace_not_mem_flatten q6 g6
  intro t ht
  obtain ⟨h5, n6⟩ := p6 t ht
  obtain ⟨h4, n5⟩ := p5 t h5
  obtain ⟨h3, n4⟩ := p4 t h4
  obtain ⟨h2, n3⟩ := p3 t h3
  obtain ⟨h1, n2⟩ := p2 t h2
  obtain ⟨_, n1⟩ := p1 t h1
  have htok : t ∈ tokensList := g6 (.ph t) ht
  simp only [tokensList, List.mem_cons, List.mem_singleton] at htok
  rcases htok with h | h | h | h | h | h
  · exact n1 h
  · exact n2 h
  · exact n3 h
  · exact n4 h
  · exact n5 h
  · simp at h
    exact n6 h

theorem renderSvg_no_lbrace (ps : List TPiece) (hps : ∀ p ∈ ps, goodPiece p)
    (bg : Option (List Char)) (hbg : ∀ b, bg = some b → lbrace ∉ b)
    (u : UniRow) (s : StudentRow)
    (hcn : lbrace ∉ u.chineseName.toStr) (hen : lbrace ∉ u.englishName.toStr)
    (hnc : lbrace ∉ s.nameCn.toStr) (hne : lbrace ∉ s.nameEn.toStr)
    (hfm : lbrace ∉ s.famName.toStr) :
    lbrace ∉ renderSvg (flattenPieces ps) bg u s := by
  cases bg with
  | none =>
    show lbrace ∉ substitutePlaceholders (injectBackground (flattenPieces ps) none) u s
    exact substitutePlaceholders_no_lbrace ps hps u s hcn hen hnc hne hfm
  | some b =>
    have hb := hbg b rfl
    have hrep : lbrace ∉ dataUriPrefix ++ b := by
      intro h
      rcases List.mem_append.mp h with h | h
      · exact lbrace_not_mem_dataUriPrefix h
      · exact hb h
    obtain ⟨q0, e0, g0, _⟩ := passBg (dataUriPrefix ++ b) hrep ps hps [] (by simp)
    rw [List.nil_append] at e0
    show lbrace ∉ substitutePlaceholders
      (replaceAll bgFileName (dataUriPrefix ++ b) (flattenPieces ps)) u s
    rw [e0]
    exact substitutePlaceholders_no_lbrace q0 g0 u s hcn hen hnc hne hfm

theorem occursB_eq_false_of_not_mem {x : Char} {pat : List Char} (hx : x ∈ pat) :
    ∀ s, x ∉ s → occursB pat s = false := by
  intro s
  induction s with
  | nil =>
    intro _
    cases pat with
    | nil => simp at hx
    | cons p pt => rfl
  | cons c cs ih =>
    intro hs
    show (pat.isPrefixOf (c :: cs) || occursB pat cs) = false
    have h1 : pat.isPrefixOf (c :: cs) = false := by
      cases htest : pat.isPrefixOf (c :: cs) with
      | false => rfl
      | true =>
        rw [List.isPrefixOf_iff_prefix] at htest
        exact absurd (htest.subset hx) hs
    rw [h1, ih (fun h => hs (List.mem_cons_of_mem c h))]
    rfl

/-! ### Single-token templates -/

theorem replaceAll_other_token_id (pat rep t : List Char) (hpat : pat ∈ tokensList)
    (ht : t ∈ tokensList) (hne : pat ≠ t) : replaceAll pat rep t = t := by
  have := peel_other_token pat rep t [] hpat ht hne
  simpa [replaceAll_nil] using this

theorem replaceAll_token_self (pat rep : List Char) (hpat : pat ∈ tokensList) :
    replaceAll pat rep pat = rep := by
  have := replaceAll_consume pat rep [] (tokens_ne_nil pat hpat)
  simpa [replaceAll_nil] using this

theorem replaceAll_tok_on_no_lbrace (pat rep s : List Char) (hpat : pat ∈ tokensList)
    (hs : lbrace ∉ s) : replaceAll pat rep s = s :=
  replaceAll_no_lbrace pat rep (tokens_head pat hpat) s hs

/-- Rendering a template that is exactly the English-name text token. -/
theorem render_tokNameEn (u : UniRow) (s : StudentRow) :
    renderSvg tokNameEn none u s =
      s.nameEn.toStr ++ [spaceChar] ++ s.famName.toStr := by
  show replaceAll tokNameEn _ (replaceAll tokNameCn _ (replaceAll tokUniEn _
    (replaceAll tokUniCn _ (replaceAll tokUniCnAttr _
      (replaceAll tokUniEnAttr _ tokNameEn))))) = _
  rw [replaceAll_other_token_id tokUniEnAttr _ tokNameEn (by decide) (by decide) (by decide),
    replaceAll_other_token_id tokUniCnAttr _ tokNameEn (by decide) (by decide) (by decide),
    replaceAll_other_token_id tokUniCn _ tokNameEn (by decide) (by decide) (by decide),
    replaceAll_other_token_id tokUniEn _ tokNameEn (by decide) (by decide) (by decide),
    replaceAll_other_token_id tokNameCn _ tokNameEn (by decide) (by decide) (by decide),
    replaceAll_token_self tokNameEn _ (by decide)]

/-- Rendering a template that is exactly the Chinese university name
token, for a value free of opening braces. -/
theorem render_tokUniCn (u : UniRow) (s : StudentRow)
    (hcn : lbrace ∉ u.chineseName.toStr) :
    renderSvg tokUniCn none u s = u.chineseName.toStr := by
  show replaceAll tokNameEn _ (replaceAll tokNameCn _ (replaceAll tokUniEn _
    (replaceAll tokUniCn _ (replaceAll tokUniCnAttr _
      (replaceAll tokUniEnAttr _ tokUniCn))))) = _
  rw [replaceAll_other_token_id tokUniEnAttr _ tokUniCn (by decide) (by decide) (by decide),
    replaceAll_other_token_id tokUniCnAttr _ tokUniCn (by decide) (by decide) (by decide),
    replaceAll_token_self tokUniCn _ (by decide),
    replaceAll_tok_on_no_lbrace tokUniEn _ _ (by decide) hcn,
    replaceAll_tok_on_no_lbrace tokNameCn _ _ (by decide) hcn,
    replaceAll_tok_on_no_lbrace tokNameEn _ _ (by decide) hcn]

/-- Rendering a template that is exactly the English university name
token, for a value free of opening braces. -/
theorem render_tokUniEn (u : UniRow) (s : StudentRow)
    (hen : lbrace ∉ u.englishName.toStr) :
    renderSvg tokUniEn none u s = u.englishName.toStr := by
  show replaceAll tokNameEn _ (replaceAll tokNameCn _ (replaceAll tokUniEn _
    (replaceAll tokUniCn _ (replaceAll tokUniCnAttr _
      (replaceAll tokUniEnAttr _ tokUniEn))))) = _
  rw [replaceAll_other_token_id tokUniEnAttr _ tokUniEn (by decide) (by decide) (by decide),
    replaceAll_other_token_id tokUniCnAttr _ tokUniEn (by decide) (by decide) (by decide),
    replaceAll_other_token_id tokUniCn _ tokUniEn (by decide) (by decide) (by decide),
    replaceAll_token_self tokUniEn _ (by decide),
    replaceAll_tok_on_no_lbrace tokNameCn _ _ (by decide) hen,
    replaceAll_tok_on_no_lbrace tokNameEn _ _ (by decide) hen]

/-- Rendering a template that is exactly the Chinese student name token,
for a value free of opening braces. -/
theorem render_tokNameCn (u : UniRow) (s : StudentRow)
    (hnc : lbrace ∉ s.nameCn.toStr) :
    renderSvg tokNameCn none u s = s.nameCn.toStr := by
  show replaceAll tokNameEn _ (replaceAll tokNameCn _ (replaceAll tokUniEn _
    (replaceAll tokUniCn _ (replaceAll tokUniCnAttr _
      (replaceAll tokUniEnAttr _ tokNameCn))))) = _
  rw [replaceAll_other_token_id tokUniEnAttr _ tokNameCn (by decide) (by decide) (by decide),
    replaceAll_other_token_id tokUniCnAttr _ tokNameCn (by decide) (by decide) (by decide),
    replaceAll_other_token_id tokUniCn _ tokNameCn (by decide) (by decide) (by decide),
    replaceAll_other_token_id tokUniEn _ tokNameCn (by decide) (by decide) (by decide),
    replaceAll_token_self tokNameCn _ (by decide),
    replaceAll_tok_on_no_lbrace tokNameEn _ _ (by decide) hnc]

/-- Rendering a template that is exactly the English-name attribute
token. -/
theorem render_tokUniEnAttr (u : UniRow) (s : StudentRow) :
    renderSvg tokUniEnAttr none u s = en_attr_of u.englishName.toStr := by
  have hv : lbrace ∉ en_attr_of u.englishName.toStr := en_attr_no_lbrace _
  show replaceAll tokNameEn _ (replaceAll tokNameCn _ (replaceAll tokUniEn _
    (replaceAll tokUniCn _ (replaceAll tokUniCnAttr _
      (replaceAll tokUniEnAttr _ tokUniEnAttr))))) = _
  rw [replaceAll_token_self tokUniEnAttr _ (by decide),
    replaceAll_tok_on_no_lbrace tokUniCnAttr _ _ (by decide) hv,
    replaceAll_tok_on_no_lbrace tokUniCn _ _ (by decide) hv,
    replaceAll_tok_on_no_lbrace tokUniEn _ _ (by decide) hv,
    replaceAll_tok_on_no_lbrace tokNameCn _ _ (by decide) hv,
    replaceAll_tok_on_no_lbrace tokNameEn _ _ (by decide) hv]

/-- Rendering a template that is exactly the Chinese-name attribute
token. -/
theorem render_tokUniCnAttr (u : UniRow) (s : StudentRow) :
    renderSvg tokUniCnAttr none u s = cn_attr_of u.chineseName.toStr := by
  have hv : lbrace ∉ cn_attr_of u.chineseName.toStr := cn_attr_no_lbrace _
  show replaceAll tokNameEn _ (replaceAll tokNameCn _ (replaceAll tokUniEn _
    (replaceAll tokUniCn _ (replaceAll tokUniCnAttr _
      (replaceAll tokUniEnAttr _ tokUniCnAttr))))) = _
  rw [replaceAll_other_token_id tokUniEnAttr _ tokUniCnAttr (by decide) (by decide) (by decide),
    replaceAll_token_self tokUniCnAttr _ (by decide),
    replaceAll_tok_on_no_lbrace tokUniCn _ _ (by decide) hv,
    replaceAll_tok_on_no_lbrace tokUniEn _ _ (by decide) hv,
    replaceAll_tok_on_no_lbrace tokNameCn _ _ (by decide) hv,
    replaceAll_tok_on_no_lbrace tokNameEn _ _ (by decide) hv]

/-! ### Lookup and display helper lemmas -/

theorem uniqueKeepFirst_nodup_aux :
    ∀ (l acc : List (List Char)), acc.Nodup →
      (l.foldl (fun acc x => if x ∈ acc then acc else acc ++ [x]) acc).Nodup := by
  intro l
  induction l with
  | nil => intro acc h; exact h
  | cons x l' ih =>
    intro acc hacc
    show (l'.foldl _ (if x ∈ acc then acc else acc ++ [x])).Nodup
    apply ih
    by_cases hx : x ∈ acc
    · simpa [hx] using hacc
    · rw [if_neg hx]
      rw [List.nodup_append]
      exact ⟨hacc, List.nodup_singleton x, by
        intro a ha hb
        simp only [List.mem_singleton] at hb
        subst hb
        exact hx ha⟩

theorem uniqueKeepFirst_nodup (l : List (List Char)) : (uniqueKeepFirst l).Nodup :=
  uniqueKeepFirst_nodup_aux l [] List.nodup_nil

theorem find_student_first (pre : List StudentRow) (r : StudentRow)
    (post : List StudentRow) (nm : List Char)
    (hpre : ∀ r' ∈ pre, r'.nameCn.eqStr nm = false)
    (hr : r.nameCn.eqStr nm = true) :
    find_student (pre ++ r :: post) nm = some r := by
  induction pre with
  | nil =>
    exact List.find?_cons_of_pos (p := fun q => q.nameCn.eqStr nm) post
      (by simpa using hr)
  | cons r' pre' ih =>
    have hstep := List.find?_cons_of_neg (p := fun q => q.nameCn.eqStr nm)
      (pre' ++ r :: post) (by simpa using hpre r' (List.mem_cons_self _ _))
    show List.find? (fun q => q.nameCn.eqStr nm) (r' :: (pre' ++ r :: post)) = some r
    rw [hstep]
    exact ih fun q hq => hpre q (List.mem_cons_of_mem _ hq)

/-! ### Concrete data for the example claims -/

/-- Modelled from the spec: the SVG template file xibaov1.svg is not among
the given sources.  Per the spec the template is raw SVG text containing
the named placeholder tokens and a literal reference to the background
file name.  This representative template, given as its well-formed piece
list, is used for the concrete example claims. -/
def xibaoTemplatePieces : List TPiece :=
  [.lit "<svg xmlns=\"http://www.w3.org/2000/svg\"><image href=\"xibaobackground.jpg\"/><text ".toList,
   .ph tokUniEnAttr,
   .lit ">".toList,
   .ph tokUniEn,
   .lit "</text><text ".toList,
   .ph tokUniCnAttr,
   .lit ">".toList,
   .ph tokUniCn,
   .lit "</text><text>".toList,
   .ph tokNameCn,
   .lit "</text><text>".toList,
   .ph tokNameEn,
   .lit "</text></svg>".toList]

/-- The modelled template as a flat string. -/
def xibaoTemplate : List Char := flattenPieces xibaoTemplatePieces

/-- The university row of the spec example. -/
def uniTsinghua : UniRow :=
  ⟨.str "Tsinghua University".toList, .str "清华大学".toList⟩

/-- The student row of the spec example. -/
def studentZhangSan : StudentRow :=
  ⟨.str "张三".toList, .str "San".toList, .str "Zhang".toList, .str "001".toList⟩

/-- A university row with a short name, used to exhibit duplicates. -/
def uniA : UniRow := ⟨.str "A".toList, .str "甲".toList⟩

/-! ### The claims -/

/-- C1: the English-name attribute placeholder is replaced by the fixed
compression attribute pair exactly when the English university name is
strictly longer than 25 characters and by the empty string (natural
width) when its length is at most 25, the boundary 25 giving natural
width; likewise the Chinese name with threshold 15. -/
theorem sizing_attr_thresholds (u : UniRow) (s : StudentRow) (en cn : List Char) :
    renderSvg tokUniEnAttr none u s = en_attr_of u.englishName.toStr ∧
    renderSvg tokUniCnAttr none u s = cn_attr_of u.chineseName.toStr ∧
    (en_attr_of en = squashAttr ↔ 25 < en.length) ∧
    (en_attr_of en = [] ↔ en.length ≤ 25) ∧
    (cn_attr_of cn = squashAttr ↔ 15 < cn.length) ∧
    (cn_attr_of cn = [] ↔ cn.length ≤ 15) := by
  refine ⟨render_tokUniEnAttr u s, render_tokUniCnAttr u s, ?_, ?_, ?_, ?_⟩
  · unfold en_attr_of
    split
    · simpa using (by assumption : 25 < en.length)
    · constructor
      · intro h
        exact absurd h.symm (by decide)
      · intro h
        omega
  · unfold en_attr_of
    split
    · constructor
      · intro h
        exact absurd h (by decide)
      · intro h
        omega
    · simpa using (by omega : en.length ≤ 25)
  · unfold cn_attr_of
    split
    · simpa using (by assumption : 15 < cn.length)
    · constructor
      · intro h
        exact absurd h.symm (by decide)
      · intro h
        omega
  · unfold cn_attr_of
    split
    · constructor
      · intro h
        exact absurd h (by decide)
      · intro h
        omega
    · simpa using (by omega : cn.length ≤ 15)

/-- C2: for any well-formed template (its placeholder set is exactly the
six listed tokens, the rest is brace-free literal text) and any values
containing no placeholder syntax, the markup produced before capture
contains none of the placeholder tokens: each was replaced, the optional
sizing attributes by the empty string when absent. -/
theorem rendered_markup_no_dangling_placeholders
    (ps : List TPiece) (hps : ∀ p ∈ ps, goodPiece p)
    (bg : Option (List Char)) (hbg : ∀ b, bg = some b → lbrace ∉ b)
    (u : UniRow) (s : StudentRow)
    (hcn : lbrace ∉ u.chineseName.toStr) (hen : lbrace ∉ u.englishName.toStr)
    (hnc : lbrace ∉ s.nameCn.toStr) (hne : lbrace ∉ s.nameEn.toStr)
    (hfm : lbrace ∉ s.famName.toStr) :
    ∀ tok ∈ tokensList, occursB tok (renderSvg (flattenPieces ps) bg u s) = false :=
  fun tok htok => occursB_eq_false_of_not_mem (lbrace_mem_tokens tok htok) _
    (renderSvg_no_lbrace ps hps bg hbg u s hcn hen hnc hne hfm)

set_option maxRecDepth 40000 in
/-- Witness for C2 at the modelled template with the example records. -/
theorem rendered_markup_no_dangling_placeholders_witness :
    (∀ p ∈ xibaoTemplatePieces, goodPiece p) ∧
    (∀ tok ∈ tokensList,
      occursB tok (renderSvg (flattenPieces xibaoTemplatePieces) none
        uniTsinghua studentZhangSan) = false) :=
  ⟨by decide, rendered_markup_no_dangling_placeholders xibaoTemplatePieces (by decide)
    none (fun b h => by simp at h) uniTsinghua studentZhangSan
    (by decide) (by decide) (by decide) (by decide) (by decide)⟩

set_option maxRecDepth 40000 in
/-- C3 counterexample: at the spec example input the rendered markup does
not contain the text Zhang San (the code joins the given name first, then
the family name). -/
theorem example_zhang_san_not_in_markup :
    occursB "Zhang San".toList
      (renderSvg xibaoTemplate none uniTsinghua studentZhangSan) = false := by
  decide

set_option maxRecDepth 40000 in
/-- C3 amended: at the spec example input, generation targets the output
file cert_001.png, and the rendered markup contains San Zhang and the
Chinese university name, with both compression-attribute placeholders
replaced by the empty string (both names under the thresholds). -/
theorem example_certificate_render :
    output_filename studentZhangSan = "cert_001.png".toList ∧
    occursB "San Zhang".toList
      (renderSvg xibaoTemplate none uniTsinghua studentZhangSan) = true ∧
    occursB "清华大学".toList
      (renderSvg xibaoTemplate none uniTsinghua studentZhangSan) = true ∧
    en_attr_of uniTsinghua.englishName.toStr = [] ∧
    cn_attr_of uniTsinghua.chineseName.toStr = [] ∧
    occursB tokUniEnAttr
      (renderSvg xibaoTemplate none uniTsinghua studentZhangSan) = false ∧
    occursB tokUniCnAttr
      (renderSvg xibaoTemplate none uniTsinghua studentZhangSan) = false ∧
    generate (some SESSION_TOKEN) "张三".toList "Tsinghua University".toList
      [uniTsinghua] [studentZhangSan] xibaoTemplate none =
      .pageWithImage (renderSvg xibaoTemplate none uniTsinghua studentZhangSan)
        "/static/cert_001.png".toList
        [uniTsinghua.englishName] [studentZhangSan.nameCn] := by
  refine ⟨by decide, by decide, by decide, by decide, by decide, by decide, by decide, ?_⟩
  decide

/-- C4: the value substituted for the English-name placeholder is the
given name, one space, then the family name. -/
theorem name_en_substituted_value (u : UniRow) (s : StudentRow) :
    renderSvg tokNameEn none u s =
      s.nameEn.toStr ++ [spaceChar] ++ s.famName.toStr :=
  render_tokNameEn u s

set_option maxRecDepth 40000 in
/-- C5 counterexample: the page returned after a generate action lists
the raw dataset columns, so with a duplicated university row the
displayed university list contains the duplicate — it is not
deduplicated. -/
theorem generate_page_lists_not_deduplicated :
    generate (some SESSION_TOKEN) "张三".toList "A".toList [uniA, uniA]
      [studentZhangSan] xibaoTemplate none =
      .pageWithImage (renderSvg xibaoTemplate none uniA studentZhangSan)
        "/static/cert_001.png".toList
        [Cell.str "A".toList, Cell.str "A".toList] [studentZhangSan.nameCn] ∧
    ¬ List.Nodup [Cell.str "A".toList, Cell.str "A".toList] := by
  refine ⟨?_, by decide⟩
  decide

/-- C5 amended: the lists shown on the home page are deduplicated before
display; when several rows share the looked-up value the first matching
row is used silently; but the page returned after a generate action
lists the raw columns without deduplication. -/
theorem display_dedup_and_first_match
    (cookie : Option (List Char)) (uni_df : List UniRow) (name_df : List StudentRow)
    (unis students : List (List Char))
    (hpage : index cookie uni_df name_df = .page unis students)
    (pre : List StudentRow) (r : StudentRow) (post : List StudentRow) (nm : List Char)
    (hpre : ∀ r' ∈ pre, r'.nameCn.eqStr nm = false)
    (hr : r.nameCn.eqStr nm = true)
    (sn un t : List Char) (bg : Option (List Char))
    (sv url : List Char) (us ss : List Cell)
    (hgen : generate cookie sn un uni_df name_df t bg = .pageWithImage sv url us ss) :
    unis.Nodup ∧ students.Nodup ∧
    find_student (pre ++ r :: post) nm = some r ∧
    us = uni_df.map (·.englishName) ∧ ss = name_df.map (·.nameCn) := by
  have hpg : unis = uniqueKeepFirst (dropna (uni_df.map (·.englishName))) ∧
      students = uniqueKeepFirst (dropna (name_df.map (·.nameCn))) := by
    unfold index at hpage
    split at hpage
    · exact absurd hpage (by simp)
    · exact ⟨(IndexResult.page.injEq _ _ _ _ ▸ hpage).1.symm,
        (IndexResult.page.injEq _ _ _ _ ▸ hpage).2.symm⟩
  have hus : us = uni_df.map (·.englishName) ∧ ss = name_df.map (·.nameCn) := by
    unfold generate at hgen
    split at hgen
    · exact absurd hgen (by simp)
    · split at hgen
      · have := (GenerateResult.pageWithImage.injEq _ _ _ _ _ _ _ _ ▸ hgen)
        exact ⟨this.2.2.1.symm, this.2.2.2.symm⟩
      · exact absurd hgen (by simp)
  exact ⟨hpg.1 ▸ uniqueKeepFirst_nodup _, hpg.2 ▸ uniqueKeepFirst_nodup _,
    find_student_first pre r post nm hpre hr, hus.1, hus.2⟩

set_option maxRecDepth 40000 in
/-- Witness for C5 amended at a concrete dataset with a duplicate row. -/
theorem display_dedup_and_first_match_witness :
    List.Nodup ["A".toList] ∧ List.Nodup ["张三".toList] ∧
    find_student [studentZhangSan] "张三".toList = some studentZhangSan ∧
    [Cell.str "A".toList, Cell.str "A".toList] = [uniA, uniA].map (·.englishName) ∧
    [studentZhangSan.nameCn] = [studentZhangSan].map (·.nameCn) := by
  have h := display_dedup_and_first_match (some SESSION_TOKEN) [uniA, uniA]
    [studentZhangSan] ["A".toList] ["张三".toList] (by decide)
    [] studentZhangSan [] "张三".toList (by simp) (by decide)
    "张三".toList "A".toList xibaoTemplate none
    (renderSvg xibaoTemplate none uniA studentZhangSan)
    "/static/cert_001.png".toList
    [Cell.str "A".toList, Cell.str "A".toList] [studentZhangSan.nameCn]
    (by decide)
  simpa using h

/-- C6: an authenticated generate request whose student or university
lookup misses returns the plain-text error and reaches no rendering or
capture step. -/
theorem generate_miss_is_error (cookie : Option (List Char)) (sn un : List Char)
    (uni_df : List UniRow) (name_df : List StudentRow)
    (t : List Char) (bg : Option (List Char))
    (hauth : check_auth cookie = true)
    (hmiss : find_student name_df sn = none ∨ find_uni uni_df un = none) :
    generate cookie sn un uni_df name_df t bg =
      .dataNotFound "Error: Data not found.".toList := by
  unfold generate
  rw [if_neg (by simp [hauth])]
  rcases hmiss with h | h
  · rw [h]
  · rw [h]
    cases find_student name_df sn <;> rfl

/-- Witness for C6 with an empty university dataset. -/
theorem generate_miss_is_error_witness :
    check_auth (some SESSION_TOKEN) = true ∧
    generate (some SESSION_TOKEN) "张三".toList "X".toList []
      [studentZhangSan] xibaoTemplate none =
      .dataNotFound "Error: Data not found.".toList :=
  ⟨by decide, generate_miss_is_error (some SESSION_TOKEN) "张三".toList "X".toList
    [] [studentZhangSan] xibaoTemplate none (by decide) (Or.inr (by decide))⟩

/-- C7: a request to the protected home page with a session cookie equal
to the fixed token is served the page; any other cookie value, including
a missing cookie, is redirected to the login page; authentication is
exactly the one string equality. -/
theorem index_auth_gate (cookie : Option (List Char))
    (uni_df : List UniRow) (name_df : List StudentRow) :
    (check_auth cookie = true ↔ cookie = some SESSION_TOKEN) ∧
    (cookie = some SESSION_TOKEN → index cookie uni_df name_df =
      .page (uniqueKeepFirst (dropna (uni_df.map (·.englishName))))
            (uniqueKeepFirst (dropna (name_df.map (·.nameCn))))) ∧
    (cookie ≠ some SESSION_TOKEN → index cookie uni_df name_df = .redirectLogin) := by
  refine ⟨?_, ?_, ?_⟩
  · unfold check_auth
    exact decide_eq_true_iff
  · intro h
    unfold index check_auth
    simp [h]
  · intro h
    unfold index check_auth
    simp [h]

/-- Witness for C7 at a valid and at a missing cookie. -/
theorem index_auth_gate_witness :
    index (some SESSION_TOKEN) [uniA] [studentZhangSan] =
      .page ["A".toList] ["张三".toList] ∧
    index none [uniA] [studentZhangSan] = .redirectLogin := by
  constructor
  · rw [(index_auth_gate (some SESSION_TOKEN) [uniA] [studentZhangSan]).2.1 rfl]
    decide
  · exact (index_auth_gate none [uniA] [studentZhangSan]).2.2 (by simp)

/-- C8: a login request with the fixed admin password redirects to the
home page and sets the session cookie to the fixed token for 604800
seconds; any other password re-renders the login page with an error and
sets no cookie. -/
theorem login_gate (password : List Char) :
    (password = ADMIN_PASSWORD → login password =
      .redirect "/".toList ⟨"session_id".toList, SESSION_TOKEN, 604800⟩) ∧
    (password ≠ ADMIN_PASSWORD → login password =
      .loginPageWithError "Incorrect Password".toList) := by
  constructor
  · intro h
    unfold login
    simp [h]
  · intro h
    unfold login
    simp [h]

/-- Witness for C8 at the correct and at a wrong password. -/
theorem login_gate_witness :
    login ADMIN_PASSWORD =
      .redirect "/".toList ⟨"session_id".toList, SESSION_TOKEN, 604800⟩ ∧
    login "wrong".toList = .loginPageWithError "Incorrect Password".toList :=
  ⟨(login_gate ADMIN_PASSWORD).1 rfl, (login_gate "wrong".toList).2 (by decide)⟩

/-- C9: with the background image file absent the data-URI replacement is
skipped, the template is left untouched by the background step, and the
remaining substitution pipeline runs to completion unchanged (the
renderer is total, so nothing is raised). -/
theorem missing_background_is_skipped (t : List Char) (u : UniRow) (s : StudentRow) :
    injectBackground t none = t ∧
    renderSvg t none u s = substitutePlaceholders t u s :=
  ⟨rfl, rfl⟩

/-- C10: a missing (NaN) field passes through string coercion: a missing
Chinese or English university name or Chinese student name is substituted
as the literal text nan, and a missing given or family name yields nan
inside the space-joined English name; the placeholder is replaced,
nothing is raised. -/
theorem nan_fields_render (x y : Cell) (s : StudentRow) (u : UniRow) :
    Cell.toStr Cell.nan = "nan".toList ∧
    renderSvg tokUniCn none ⟨x, Cell.nan⟩ s = "nan".toList ∧
    renderSvg tokUniEn none ⟨Cell.nan, x⟩ s = "nan".toList ∧
    renderSvg tokNameCn none u ⟨Cell.nan, x, y, y⟩ = "nan".toList ∧
    renderSvg tokNameEn none u ⟨x, Cell.nan, y, y⟩ =
      "nan".toList ++ [spaceChar] ++ y.toStr ∧
    renderSvg tokNameEn none u ⟨x, y, Cell.nan, y⟩ =
      y.toStr ++ [spaceChar] ++ "nan".toList := by
  refine ⟨by decide, ?_, ?_, ?_, ?_, ?_⟩
  · have h := render_tokUniCn ⟨x, Cell.nan⟩ s
      (show lbrace ∉ Cell.toStr Cell.nan by decide)
    simpa using h
  · have h := render_tokUniEn ⟨Cell.nan, x⟩ s
      (show lbrace ∉ Cell.toStr Cell.nan by decide)
    simpa using h
  · have h := render_tokNameCn u ⟨Cell.nan, x, y, y⟩
      (show lbrace ∉ Cell.toStr Cell.nan by decide)
    simpa using h
  · have h := render_tokNameEn u ⟨x, Cell.nan, y, y⟩
    simpa using h
  · have h := render_tokNameEn u ⟨x, y, Cell.nan, y⟩
    simpa using h

end Xibao
